import Mathlib

/-!
Verification of the alembic revision-graph engine (`alembic/script.py` together
with its revision-map collaborator) against its natural-language specification.

The data model and the operations of `ScriptDirectory` are embedded from
`src/alembic/script.py`.  The repository snapshot does not ship
`alembic/revision.py` (only its tests and callers), so the `RevisionMap`
operations (`get_revisions`, ancestor/descendant queries, `_iterate_revisions`,
`get_current_head`, `add_revision`, `filter_for_lineage`) are modelled from the
specification, and validated against the concrete expected sequences of
`src/tests/test_revision.py`.
-/

namespace Alembic

/-- A revision node: id, ordered parent ids, optional branch labels.
Embeds `Revision(rev_id, down_revision, branch_labels)`. -/
structure Revision where
  revision : String
  down_revision : List String
  branch_labels : List String
deriving Repr, DecidableEq

/-- The revision map owns the full collection of revision nodes
(the DAG is derived from the parent-id lists). -/
structure RevisionMap where
  revisions : List Revision
deriving Repr, DecidableEq

/-- Look a revision up by exact id (ids are unique in a well-formed map). -/
def RevisionMap.get (m : RevisionMap) (id_ : String) : Option Revision :=
  m.revisions.find? (fun r => r.revision == id_)

/-- Derived child index: ids of the nodes whose `down_revision` includes `id_`
(the `nextrev` attribute computed once the full node set is known). -/
def RevisionMap.nextrev (m : RevisionMap) (id_ : String) : List String :=
  (m.revisions.filter (fun r => decide (id_ ∈ r.down_revision))).map Revision.revision

/-- `heads`: all nodes with no children. -/
def RevisionMap.heads (m : RevisionMap) : List String :=
  (m.revisions.filter (fun r => (m.nextrev r.revision).isEmpty)).map Revision.revision

/-- `bases`: all nodes with no parents (`down_revision` empty). -/
def RevisionMap.bases (m : RevisionMap) : List String :=
  (m.revisions.filter (fun r => r.down_revision.isEmpty)).map Revision.revision

/-- `is_head` of a node relative to a map: it has no children. -/
def RevisionMap.is_head (m : RevisionMap) (id_ : String) : Bool :=
  (m.nextrev id_).isEmpty

/-- Every id mentioned anywhere in the map (node ids and parent ids). -/
def RevisionMap.allIds (m : RevisionMap) : List String :=
  (m.revisions.map Revision.revision ++ m.revisions.flatMap Revision.down_revision).dedup

/-- One-step parent successors of an id: the `down_revision` entries of the
node carrying that id.  Used by the ancestor query. -/
def ancSuccs (m : RevisionMap) (a : String) : List String :=
  (m.revisions.filter (fun r => r.revision == a)).flatMap Revision.down_revision

/-- One-step child successors of an id: ids of nodes listing it as a parent.
Used by the descendant query. -/
def descSuccs (m : RevisionMap) (a : String) : List String :=
  (m.revisions.filter (fun r => decide (a ∈ r.down_revision))).map Revision.revision

/-- The elements a closure step adds to `S`: one-step successors of members
of `S` that are not yet in `S`, deduplicated. -/
def newPart (succs : String → List String) (S : List String) : List String :=
  ((S.flatMap succs).filter (fun y => decide (y ∉ S))).dedup

/-- One closure step: `S` together with its fresh one-step successors. -/
def closeStep (succs : String → List String) (S : List String) : List String :=
  S ++ newPart succs S

/-- `fuel` iterated closure steps. -/
def closeList (succs : String → List String) : Nat → List String → List String
  | 0, S => S
  | k + 1, S => closeList succs k (closeStep succs S)

/-- Universe of ids relevant to a closure started from `seeds`. -/
def RevisionMap.closureUniv (m : RevisionMap) (seeds : List String) : List String :=
  (seeds ++ m.allIds).dedup

/-- Modelled from the spec: `_get_ancestor_nodes(targets)` — transitive closure
following `down_revisions` from a starting node set, including the starting
nodes themselves (`alembic/revision.py` is absent from the snapshot; spec 4.2). -/
def RevisionMap.ancestorIds (m : RevisionMap) (seeds : List String) : List String :=
  closeList (ancSuccs m) ((m.closureUniv seeds).length + 1) seeds.dedup

/-- Modelled from the spec: `_get_descendant_nodes(targets)` — transitive
closure following `next_revisions` from a starting node set, including the
starting nodes themselves (spec 4.2). -/
def RevisionMap.descendantIds (m : RevisionMap) (seeds : List String) : List String :=
  closeList (descSuccs m) ((m.closureUniv seeds).length + 1) seeds.dedup

/-- Structured revision-level errors (spec section 7). -/
inductive RevError where
  | rangeNotAncestor (lower upper : List String)
  | multipleHeads (heads : List String) (argument : String)
  | revisionNotFound (ref : String)
deriving Repr, DecidableEq

/-- Number of children of `id_` that still lie inside `space`. -/
def childCountInSpace (m : RevisionMap) (space : List String) (id_ : String) : Nat :=
  ((m.nextrev id_).filter (fun c => decide (c ∈ space))).length

/-- The work loop of the branch-aware downward walk.  Modelled from the spec
(4.3, `alembic/revision.py` absent): depth-first stack discipline; a parent that
is a still-barred branch point is not pushed; when the stack drains, branch
points all of whose children inside the walk space have been consumed are
released, preserving their recorded order. -/
def iterLoop (m : RevisionMap) (inclusive : Bool) (requestedLowerIds : List String) :
    Nat → List String → List String → List String → List Revision → List Revision
  | 0, _, _, _, acc => acc
  | fuel + 1, todo, branchTodo, space, acc =>
    match todo with
    | [] =>
      let released := branchTodo.filter (fun b => childCountInSpace m space b == 0)
      if released.isEmpty then acc
      else
        iterLoop m inclusive requestedLowerIds fuel released
          (branchTodo.filter (fun b => decide (b ∉ released))) space acc
    | t :: rest =>
      if decide (t ∈ space) then
        match m.get t with
        | none => iterLoop m inclusive requestedLowerIds fuel rest branchTodo space acc
        | some r =>
          let space' := space.erase t
          let pushes := r.down_revision.filter
            (fun p => decide (p ∈ space') && decide (p ∉ branchTodo))
          let acc' :=
            if !inclusive && decide (t ∈ requestedLowerIds) then acc else acc ++ [r]
          iterLoop m inclusive requestedLowerIds fuel (pushes ++ rest) branchTodo space' acc'
      else iterLoop m inclusive requestedLowerIds fuel rest branchTodo space acc

/-- Modelled from the spec: the extra implicit lower boundaries used by
`implicit_base=True` when explicit lowers were given — branches of the upper
ancestry unrelated to the requested lowers terminate at their local bases
instead of failing (spec 4.3). -/
def RevisionMap.implicitBaseLowers (m : RevisionMap) (upperIds reqLowerIds : List String) :
    List String :=
  let ancU := m.ancestorIds upperIds
  let lowerAnc := m.ancestorIds reqLowerIds
  let lowerDesc := m.descendantIds reqLowerIds
  let candidates := ancU.filter
    (fun x => decide (x ∉ lowerAnc) && decide (x ∉ lowerDesc))
  candidates.filter (fun x =>
    match m.get x with
    | some r => decide (∀ d ∈ r.down_revision, d ∉ candidates)
    | none => true)

/-- Modelled from the spec: `RevisionMap._iterate_revisions(upper, lower,
inclusive, implicit_base)` over already-resolved id lists (spec 4.3).  The walk
space is the intersection of the upper ancestry with the lower descendancy; an
empty space fails with `RangeNotAncestorError(lower, upper)`; branch points with
more than one child inside the space act as barriers. -/
def RevisionMap.iterateIds (m : RevisionMap) (upperIds lowerIds : List String)
    (inclusive implicit_base : Bool) : Except RevError (List Revision) :=
  let uppers := (upperIds.filterMap m.get).dedup
  let requestedLowerIds := (lowerIds.filterMap m.get).map Revision.revision
  let effLowerIds :=
    if requestedLowerIds.isEmpty then m.bases
    else if implicit_base then
      requestedLowerIds ++ m.implicitBaseLowers (uppers.map Revision.revision) requestedLowerIds
    else requestedLowerIds
  let ancU := m.ancestorIds (uppers.map Revision.revision)
  let descL := m.descendantIds effLowerIds
  let space := ancU.filter (fun x => decide (x ∈ descL))
  if space.isEmpty then .error (.rangeNotAncestor lowerIds upperIds)
  else
    let branchTodo := space.filter (fun x => 1 < childCountInSpace m space x)
    let todo := (uppers.map Revision.revision).filter (fun u => decide (u ∈ space))
    let fuel := space.length * (space.length + 2) + todo.length + 2 * branchTodo.length + 4
    .ok (iterLoop m inclusive requestedLowerIds fuel todo branchTodo space [])

/-- `RevisionMap._iterate_revisions` with the default of the source `inclusive=True`. -/
def RevisionMap._iterate_revisions (m : RevisionMap) (upperIds lowerIds : List String)
    (inclusive implicit_base : Bool) : Except RevError (List Revision) :=
  m.iterateIds upperIds lowerIds inclusive implicit_base

/-- Modelled from the spec: the public `RevisionMap.iterate_revisions`, an
inclusive walk between symbolic boundaries (spec 4.3, 6). -/
def RevisionMap.iterate_revisions (m : RevisionMap) (upperIds lowerIds : List String)
    (implicit_base : Bool) : Except RevError (List Revision) :=
  m.iterateIds upperIds lowerIds true implicit_base

/-- Modelled from the spec: `RevisionMap.get_current_head` — the single head,
`None` when the map is empty, and a `MultipleHeads` error carrying the full
head list and the offending argument when branching produced several heads
(spec 4.3 failure modes, 7). -/
def RevisionMap.get_current_head (m : RevisionMap) : Except RevError (Option String) :=
  if 1 < m.heads.length then .error (.multipleHeads m.heads "head")
  else .ok m.heads.head?

/-- Modelled from the spec: resolution of a symbolic identifier reference to a
list of concrete revision ids (spec 3, 4.1): `"heads"` yields every current
head, `"head"` the single head (failing on ambiguity), `"base"`/`"bases"` the
empty lower boundary, and a plain id resolves by exact match. -/
def RevisionMap.resolveSymbol (m : RevisionMap) (ref : String) : Except RevError (List String) :=
  if ref == "heads" then .ok m.heads
  else if ref == "head" then
    match m.get_current_head with
    | .error e => .error e
    | .ok none => .ok []
    | .ok (some h) => .ok [h]
  else if ref == "base" || ref == "bases" then .ok []
  else
    match m.get ref with
    | some r => .ok [r.revision]
    | none => .error (.revisionNotFound ref)

/-- Modelled from the spec: `RevisionMap.get_revisions` over a sequence of
references — each reference is resolved and the results concatenated (spec 4.1). -/
def RevisionMap.resolveRefs (m : RevisionMap) : List String → Except RevError (List Revision)
  | [] => .ok []
  | ref :: rest =>
    match m.resolveSymbol ref, m.resolveRefs rest with
    | .error e, _ => .error e
    | .ok _, .error e => .error e
    | .ok ids, .ok rs => .ok (ids.filterMap m.get ++ rs)

/-- Modelled from the spec: `get_revisions` over plain concrete ids, as used
with the recorded head set of the version table (spec 4.1). -/
def RevisionMap.getRevisions (m : RevisionMap) (ids : List String) : List Revision :=
  ids.filterMap m.get

/-- Modelled from the spec: `filter_for_lineage(nodes, ref)` narrows a node set
to only those sharing lineage with the reference — ancestors or descendants of
the node the reference resolves to (spec 4.2). -/
def RevisionMap.filter_for_lineage (m : RevisionMap) (nodes : List Revision) (ref : String) :
    List Revision :=
  match m.get ref with
  | none => nodes
  | some d =>
    nodes.filter (fun h =>
      decide (h.revision ∈ m.ancestorIds [d.revision]) ||
      decide (h.revision ∈ m.descendantIds [d.revision]))

/-- Modelled from the spec: `add_revision(node)` — explicit single-node
incremental insertion after the initial build (spec, Revision Map lifecycle). -/
def RevisionMap.add_revision (m : RevisionMap) (r : Revision) : RevisionMap :=
  ⟨m.revisions ++ [r]⟩

/-- Command-level errors surfaced by `ScriptDirectory`: `util.CommandError`
(raised directly or remapped by `_catch_revision_errors`), and a Python
`AssertionError`, which `_catch_revision_errors` does not catch and which
therefore escapes as-is. -/
inductive CmdError where
  | commandError (msg : String)
  | fromRevision (e : RevError)
  | assertionError
deriving Repr, DecidableEq

/-- A migration plan step.  Modelled from the spec: each step knows its own id,
the id(s) it supersedes, and its direction (spec 4.4; `alembic/migration.py`
is absent from the snapshot). -/
structure MigrationStep where
  is_upgrade : Bool
  rev_id : String
  supersedes : List String
deriving Repr, DecidableEq

/-- Modelled from the spec: `MigrationStep.upgrade_from_script` — an upgrade
step for one script, superseding the parents of that script (spec 4.4). -/
def MigrationStep.upgrade_from_script (r : Revision) : MigrationStep :=
  ⟨true, r.revision, r.down_revision⟩

/-- The heterogeneous first argument of `StampStep`: the source passes either a
single revision id or a list of ids (which may contain `None`). -/
inductive StampFromArg where
  | scalar (s : String)
  | listArg (l : List (Option String))
deriving Repr, DecidableEq

/-- A stamp bookkeeping step, `migration.StampStep(from_, to_, is_upgrade,
branch_move)` (modelled from the spec: stamp steps execute no code, spec 4.4;
`alembic/migration.py` is absent from the snapshot). -/
structure StampStep where
  from_ : StampFromArg
  to_ : Option String
  is_upgrade : Bool
  branch_move : Bool
deriving Repr, DecidableEq

/-- Embeds `ScriptDirectory._upgrade_revs`: traverse from the destination down
to the current revision(s) with `implicit_base=True`, reverse the
newest-to-oldest traversal, and emit one upgrade step per node. -/
def _upgrade_revs (m : RevisionMap) (destination : String) (current_rev : List String) :
    Except RevError (List MigrationStep) :=
  (m.iterate_revisions [destination] current_rev true).map
    (fun revs => revs.reverse.map MigrationStep.upgrade_from_script)

/-- Embeds `ScriptDirectory._stamp_revs(revision, heads)`: resolve the recorded
heads, narrow them to the lineage of the target, then classify the target
against the filtered heads via the descendant/ascendant queries.  The source
opens its descendants branch with `assert not
ancestors.intersection(filtered_heads)`; a head set straddling the target (some
head above it and some head below it) therefore raises `AssertionError`, which
`_catch_revision_errors` does not catch — modelled by the `assertionError`
outcome. -/
def _stamp_revs (m : RevisionMap) (revisionArg : String) (headIds : List String) :
    Except CmdError (List StampStep) :=
  let filtered_heads := m.filter_for_lineage (m.getRevisions headIds) revisionArg
  match m.get revisionArg with
  | none =>
    .ok (filtered_heads.map (fun h => ⟨.scalar h.revision, none, false, true⟩))
  | some dest =>
    if dest ∈ filtered_heads then .ok []
    else
      let descendants := m.descendantIds [dest.revision]
      let ancestors := m.ancestorIds [dest.revision]
      if filtered_heads.any (fun h => decide (h.revision ∈ descendants)) then
        if filtered_heads.any (fun h => decide (h.revision ∈ ancestors)) then
          .error .assertionError
        else
          .ok [⟨.listArg (filtered_heads.map (fun h => some h.revision)), some dest.revision,
            false, false⟩]
      else if filtered_heads.any (fun h => decide (h.revision ∈ ancestors)) then
        .ok [⟨.listArg (filtered_heads.map (fun h => some h.revision)), some dest.revision,
          true, false⟩]
      else
        .ok [⟨.listArg [none], some dest.revision, true, true⟩]

/-- Embeds `ScriptDirectory.get_base`: the single base revision, `None` when
there is none, an error directing the caller to `get_bases()` when several. -/
def get_base (m : RevisionMap) : Except CmdError (Option String) :=
  let bases := m.bases
  if 1 < bases.length then
    .error (.commandError "The script directory has multiple bases. Please use get_bases().")
  else if bases.isEmpty then .ok none
  else .ok bases.head?

/-- Observable effects of `generate_revision` outside the revision map (the
revision file written by the template).  File-path construction is modelled
abstractly by the revision id. -/
inductive GenEffect where
  | fileCreated (path : String)
deriving Repr, DecidableEq

/-- Outcome of a successful `generate_revision`: the external effects, the
post-state of the in-memory revision map, and the returned script (if any). -/
structure GenOutcome where
  effects : List GenEffect
  map : RevisionMap
  script : Option Revision
deriving Repr, DecidableEq

/-- Embeds `ScriptDirectory.generate_revision(revid, message, head, refresh,
splice, branch_labels)`: resolve the head references, reject duplicate resolved
heads, reject non-head parents unless `splice`, write the file, and refresh the
in-memory map only when requested.  Template rendering is modelled by the
`fileCreated` effect and the new `Revision` value it denotes. -/
def generate_revision (m : RevisionMap) (revid message : String) (headRefs : List String)
    (refresh splice : Bool) (branch_labels : List String) : Except CmdError GenOutcome :=
  match m.resolveRefs headRefs with
  | .error e => .error (.fromRevision e)
  | .ok heads =>
    if heads.dedup.length ≠ heads.length then
      .error (.commandError "Duplicate head revisions specified")
    else
      let path := revid ++ "_" ++ message
      let offender := if splice then none else heads.find? (fun h => !(m.is_head h.revision))
      match offender with
      | some h =>
        .error (.commandError ("Revision " ++ h.revision ++
          " is not a head revision; please specify --splice to create a new branch from this revision"))
      | none =>
        if refresh then
          let script : Revision := ⟨revid, heads.map Revision.revision, branch_labels⟩
          if decide (branch_labels ≠ []) && decide (script.branch_labels = []) then
            .error (.commandError "branch_labels missing from generated file")
          else
            .ok ⟨[.fileCreated path], m.add_revision script, some script⟩
        else
          .ok ⟨[.fileCreated path], m, none⟩

/-! ### Concrete revision maps from `src/tests/test_revision.py` -/

/-- Build a plain revision node without branch labels. -/
def mkRev (id_ : String) (downs : List String) : Revision := ⟨id_, downs, []⟩

/-- The diamond fixture a→(b1,b2)→c→d of `test_diamond`. -/
def diamondMap : RevisionMap :=
  ⟨[mkRev "a" [], mkRev "b1" ["a"], mkRev "b2" ["a"], mkRev "c" ["b1", "b2"], mkRev "d" ["c"]]⟩

/-- The multi-branch fixture of `test_many_branches`. -/
def manyBranchesMap : RevisionMap :=
  ⟨[mkRev "a" [], mkRev "b1" ["a"], mkRev "b2" ["a"], mkRev "cb1" ["b1"], mkRev "cb2" ["b2"],
    mkRev "d1cb1" ["cb1"], mkRev "d2cb1" ["cb1"], mkRev "d1cb2" ["cb2"], mkRev "d2cb2" ["cb2"],
    mkRev "d3cb2" ["cb2"], mkRev "d1d2cb2" ["d1cb2", "d2cb2"]]⟩

/-- The 14-node multi-level branch/merge fixture of `test_branch_travelling`. -/
def travMap : RevisionMap :=
  ⟨[mkRev "a1" [], mkRev "a2" ["a1"], mkRev "a3" ["a2"], mkRev "b1" ["a3"], mkRev "b2" ["a3"],
    mkRev "cb1" ["b1"], mkRev "cb2" ["b2"], mkRev "db1" ["cb1"], mkRev "db2" ["cb2"],
    mkRev "e1b1" ["db1"], mkRev "fe1b1" ["e1b1"], mkRev "e2b1" ["db1"], mkRev "e2b2" ["db2"],
    mkRev "merge" ["e2b1", "e2b2"]]⟩

/-- A straight chain a→b→c (`test_straight`). -/
def chainMap : RevisionMap := ⟨[mkRev "a" [], mkRev "b" ["a"], mkRev "c" ["b"]]⟩

/-- A map with one base and two heads. -/
def twoHeadsMap : RevisionMap := ⟨[mkRev "a" [], mkRev "b" ["a"], mkRev "c" ["a"]]⟩

/-- A map with two disjoint base revisions. -/
def twoBasesMap : RevisionMap := ⟨[mkRev "a" [], mkRev "b" []]⟩

/-- The empty revision map. -/
def emptyMap : RevisionMap := ⟨[]⟩

/-- Project a traversal result to the yielded revision ids. -/
def walkIds (x : Except RevError (List Revision)) : Option (List String) :=
  x.toOption.map (fun l => l.map Revision.revision)

/-! ### Properties of the transitive-closure computation -/

theorem mem_newPart {succs : String → List String} {S : List String} {y : String} :
    y ∈ newPart succs S ↔ (∃ x ∈ S, y ∈ succs x) ∧ y ∉ S := by
  simp [newPart, List.mem_dedup, List.mem_filter, List.mem_flatMap]

theorem mem_closeStep {succs : String → List String} {S : List String} {y : String} :
    y ∈ closeStep succs S ↔ y ∈ S ∨ ∃ x ∈ S, y ∈ succs x := by
  simp only [closeStep, List.mem_append, mem_newPart]
  by_cases h : y ∈ S <;> simp [h]

theorem subset_closeStep {succs : String → List String} {S : List String} :
    S ⊆ closeStep succs S :=
  fun _ hy => List.mem_append.mpr (Or.inl hy)

theorem closeStep_nodup {succs : String → List String} {S : List String} (h : S.Nodup) :
    (closeStep succs S).Nodup := by
  refine h.append (List.nodup_dedup _) ?_
  intro a ha hb
  rw [mem_newPart] at hb
  exact hb.2 ha

theorem closeStep_eq_self {succs : String → List String} {S : List String} :
    closeStep succs S = S ↔ newPart succs S = [] := by
  constructor
  · intro h
    have hlen := congrArg List.length h
    rw [closeStep, List.length_append] at hlen
    exact List.length_eq_zero.mp (by omega)
  · intro h
    simp [closeStep, h]

theorem closeList_stall {succs : String → List String} {S : List String}
    (h : closeStep succs S = S) : ∀ k, closeList succs k S = S
  | 0 => rfl
  | k + 1 => by
    rw [show closeList succs (k + 1) S = closeList succs k (closeStep succs S) from rfl, h]
    exact closeList_stall h k

theorem subset_closeList (succs : String → List String) :
    ∀ (k : Nat) (S : List String), S ⊆ closeList succs k S
  | 0, _ => fun _ hy => hy
  | k + 1, S => fun _ hy =>
    subset_closeList succs k (closeStep succs S) (subset_closeStep hy)

theorem nodup_subset_length_le {S U : List String} (hnd : S.Nodup)
    (hsub : ∀ x ∈ S, x ∈ U) : S.length ≤ U.length := by
  have h1 : S.toFinset.card = S.length := List.toFinset_card_of_nodup hnd
  have h2 : S.toFinset ⊆ U.toFinset := by
    intro a ha
    rw [List.mem_toFinset] at ha ⊢
    exact hsub a ha
  have h3 := Finset.card_le_card h2
  have h4 := List.toFinset_card_le U
  omega

theorem closeStep_saturates (succs : String → List String) (U : List String)
    (hU : ∀ x, ∀ y ∈ succs x, y ∈ U) :
    ∀ (k : Nat) (S : List String), S.Nodup → (∀ x ∈ S, x ∈ U) →
      U.length + 1 ≤ k + S.length →
      closeStep succs (closeList succs k S) = closeList succs k S := by
  intro k
  induction k with
  | zero =>
    intro S hnd hsub hk
    exfalso
    have := nodup_subset_length_le hnd hsub
    omega
  | succ k ih =>
    intro S hnd hsub hk
    by_cases hst : closeStep succs S = S
    · rw [closeList_stall hst (k + 1)]
      exact hst
    · have hnp : newPart succs S ≠ [] := fun h => hst (closeStep_eq_self.mpr h)
      have h0 : 0 < (newPart succs S).length := List.length_pos.mpr hnp
      have hlen : S.length + 1 ≤ (closeStep succs S).length := by
        rw [closeStep, List.length_append]
        omega
      have hsub' : ∀ x ∈ closeStep succs S, x ∈ U := by
        intro x hx
        rcases mem_closeStep.mp hx with h | ⟨a, _, hya⟩
        · exact hsub x h
        · exact hU a x hya
      rw [show closeList succs (k + 1) S = closeList succs k (closeStep succs S) from rfl]
      exact ih (closeStep succs S) (closeStep_nodup hnd) hsub' (by omega)

theorem closeList_sound (succs : String → List String) :
    ∀ (k : Nat) (S : List String) (y : String), y ∈ closeList succs k S →
      ∃ a ∈ S, Relation.ReflTransGen (fun u v => v ∈ succs u) a y := by
  intro k
  induction k with
  | zero =>
    intro S y hy
    exact ⟨y, hy, Relation.ReflTransGen.refl⟩
  | succ k ih =>
    intro S y hy
    obtain ⟨a, ha, hr⟩ := ih (closeStep succs S) y hy
    rcases mem_closeStep.mp ha with h | ⟨b, hb, hba⟩
    · exact ⟨a, h, hr⟩
    · exact ⟨b, hb, Relation.ReflTransGen.head hba hr⟩

theorem get_rev_eq {m : RevisionMap} {x : String} {r : Revision}
    (h : m.get x = some r) : r.revision = x := by
  rw [RevisionMap.get] at h
  have h2 := List.find?_some h
  simpa using h2

theorem ancSuccs_mem_univ (m : RevisionMap) (seeds : List String) :
    ∀ x, ∀ y ∈ ancSuccs m x, y ∈ m.closureUniv seeds := by
  intro x y hy
  simp only [ancSuccs, List.mem_flatMap, List.mem_filter, beq_iff_eq] at hy
  obtain ⟨r, ⟨hr, _⟩, hyr⟩ := hy
  simp only [RevisionMap.closureUniv, RevisionMap.allIds, List.mem_dedup, List.mem_append,
    List.mem_flatMap]
  exact Or.inr (Or.inr ⟨r, hr, hyr⟩)

theorem descSuccs_mem_univ (m : RevisionMap) (seeds : List String) :
    ∀ x, ∀ y ∈ descSuccs m x, y ∈ m.closureUniv seeds := by
  intro x y hy
  simp only [descSuccs, List.mem_map, List.mem_filter] at hy
  obtain ⟨r, ⟨hr, _⟩, hyr⟩ := hy
  simp only [RevisionMap.closureUniv, RevisionMap.allIds, List.mem_dedup, List.mem_append,
    List.mem_map]
  exact Or.inr (Or.inl ⟨r, hr, hyr⟩)

theorem seeds_sub_univ (m : RevisionMap) (seeds : List String) :
    ∀ x ∈ seeds.dedup, x ∈ m.closureUniv seeds := by
  intro x hx
  rw [List.mem_dedup] at hx
  simp only [RevisionMap.closureUniv, List.mem_dedup, List.mem_append]
  exact Or.inl hx

theorem ancestorIds_saturated (m : RevisionMap) (seeds : List String) :
    closeStep (ancSuccs m) (m.ancestorIds seeds) = m.ancestorIds seeds :=
  closeStep_saturates (ancSuccs m) (m.closureUniv seeds) (ancSuccs_mem_univ m seeds)
    ((m.closureUniv seeds).length + 1) seeds.dedup (List.nodup_dedup seeds)
    (seeds_sub_univ m seeds) (Nat.le_add_right _ _)

theorem mem_ancestorIds_self (m : RevisionMap) {x : String} {seeds : List String}
    (hx : x ∈ seeds) : x ∈ m.ancestorIds seeds :=
  subset_closeList (ancSuccs m) _ seeds.dedup (List.mem_dedup.mpr hx)

theorem ancestorIds_rtg_closed (m : RevisionMap) (seeds : List String) {x y : String}
    (hx : x ∈ m.ancestorIds seeds)
    (h : Relation.ReflTransGen (fun u v => v ∈ ancSuccs m u) x y) :
    y ∈ m.ancestorIds seeds := by
  induction h with
  | refl => exact hx
  | tail _ h2 ih =>
    exact ancestorIds_saturated m seeds ▸ mem_closeStep.mpr (Or.inr ⟨_, ih, h2⟩)

theorem descendantIds_sound (m : RevisionMap) {l x : String}
    (h : x ∈ m.descendantIds [l]) :
    Relation.ReflTransGen (fun u v => v ∈ descSuccs m u) l x := by
  obtain ⟨a, ha, hr⟩ := closeList_sound (descSuccs m) _ _ _ h
  have : a = l := by simpa using ha
  subst this
  exact hr

theorem succ_desc_anc (m : RevisionMap) {a b : String} (h : b ∈ descSuccs m a) :
    a ∈ ancSuccs m b := by
  simp only [descSuccs, List.mem_map, List.mem_filter, decide_eq_true_eq] at h
  obtain ⟨r, ⟨hr, hmem⟩, hrb⟩ := h
  simp only [ancSuccs, List.mem_flatMap, List.mem_filter, beq_iff_eq]
  exact ⟨r, ⟨hr, hrb⟩, hmem⟩

theorem rtg_desc_to_anc (m : RevisionMap) {a b : String}
    (h : Relation.ReflTransGen (fun u v => v ∈ descSuccs m u) a b) :
    Relation.ReflTransGen (fun u v => v ∈ ancSuccs m u) b a := by
  induction h with
  | refl => exact Relation.ReflTransGen.refl
  | tail _ h2 ih => exact Relation.ReflTransGen.head (succ_desc_anc m h2) ih

theorem not_ancestor_space_empty (m : RevisionMap) {u l : String}
    (hna : l ∉ m.ancestorIds [u]) :
    ∀ x ∈ m.ancestorIds [u], x ∉ m.descendantIds [l] := by
  intro x hx hxd
  exact hna (ancestorIds_rtg_closed m [u] hx (rtg_desc_to_anc m (descendantIds_sound m hxd)))

theorem closeList_nil (succs : String → List String) (k : Nat) :
    closeList succs k [] = [] := by
  have : closeStep succs [] = [] := by
    rw [closeStep_eq_self]
    simp [newPart]
  exact closeList_stall this k

/-! ### Claim theorems -/

/-- C7: for the diamond a→(b1,b2)→c→d, walking from d down to a yields exactly
[d, c, b1, b2, a] — both merge parents are emitted before their shared ancestor,
and the branch point a is emitted exactly once, after both branches are
exhausted. -/
theorem diamond_walk :
    walkIds (diamondMap.iterate_revisions ["d"] ["a"] false) =
      some ["d", "c", "b1", "b2", "a"] ∧
    ((walkIds (diamondMap.iterate_revisions ["d"] ["a"] false)).getD []).count "a" = 1 := by
  constructor
  · decide
  · decide

/-- C3: in the multi-branch graph where branch point cb2 has three children,
walking from the two-parent merge d1d2cb2 down to a yields
[d1d2cb2, d1cb2, d2cb2, cb2, b2, a] with cb2 emitted exactly once, and walking
from d3cb2 alone yields [d3cb2, cb2, b2, a] with no waiting. -/
theorem many_branches_walk :
    walkIds (manyBranchesMap._iterate_revisions ["d1d2cb2"] ["a"] true false) =
      some ["d1d2cb2", "d1cb2", "d2cb2", "cb2", "b2", "a"] ∧
    ((walkIds (manyBranchesMap._iterate_revisions ["d1d2cb2"] ["a"] true false)).getD
      []).count "cb2" = 1 ∧
    walkIds (manyBranchesMap._iterate_revisions ["d3cb2"] ["a"] true false) =
      some ["d3cb2", "cb2", "b2", "a"] := by
  refine ⟨by decide, by decide, by decide⟩

/-- C2: in the 14-node fixture, iterating from merge to a1 yields both branch
chains completely before the convergence point a3, and iterating from
[merge, fe1b1] to a1 produces barriers at both db1 and a3: no node beyond a
convergence point is yielded until every active branch has reached it. -/
theorem branch_travelling_barriers :
    walkIds (travMap._iterate_revisions ["merge"] ["a1"] true false) =
      some ["merge", "e2b1", "db1", "cb1", "b1", "e2b2", "db2", "cb2", "b2",
            "a3", "a2", "a1"] ∧
    walkIds (travMap._iterate_revisions ["merge", "fe1b1"] ["a1"] true false) =
      some ["merge", "e2b1", "e2b2", "db2", "cb2", "b2", "fe1b1", "e1b1", "db1",
            "cb1", "b1", "a3", "a2", "a1"] ∧
    (((walkIds (travMap._iterate_revisions ["merge"] ["a1"] true false)).getD []).indexOf
        "b1" <
      ((walkIds (travMap._iterate_revisions ["merge"] ["a1"] true false)).getD []).indexOf
        "a3") ∧
    (((walkIds (travMap._iterate_revisions ["merge"] ["a1"] true false)).getD []).indexOf
        "b2" <
      ((walkIds (travMap._iterate_revisions ["merge"] ["a1"] true false)).getD []).indexOf
        "a3") ∧
    (((walkIds (travMap._iterate_revisions ["merge", "fe1b1"] ["a1"] true false)).getD
        []).indexOf "e1b1" <
      ((walkIds (travMap._iterate_revisions ["merge", "fe1b1"] ["a1"] true false)).getD
        []).indexOf "db1") ∧
    (((walkIds (travMap._iterate_revisions ["merge", "fe1b1"] ["a1"] true false)).getD
        []).indexOf "e2b1" <
      ((walkIds (travMap._iterate_revisions ["merge", "fe1b1"] ["a1"] true false)).getD
        []).indexOf "db1") := by
  refine ⟨by decide, by decide, by decide, by decide, by decide, by decide⟩

/-- C6: when the resolved lower boundary is not an ancestor of the upper
boundary along any branch, the walk fails with a range-not-ancestor error
carrying that exact upper/lower pair, rather than silently returning a partial
or empty sequence. -/
theorem range_not_ancestor_failure (m : RevisionMap) (upper lower : String) (rl : Revision)
    (hl : m.get lower = some rl)
    (hna : lower ∉ m.ancestorIds [upper]) :
    m.iterateIds [upper] [lower] true false =
      .error (.rangeNotAncestor [lower] [upper]) := by
  have hrl : rl.revision = lower := get_rev_eq hl
  rcases hu : m.get upper with _ | ru
  · rw [RevisionMap.iterateIds]
    simp only [List.filterMap_cons, List.filterMap_nil, hu, hl, List.dedup_nil,
      List.map_nil, List.map_cons, hrl, closeList_nil, RevisionMap.ancestorIds,
      List.filter_nil, List.isEmpty_nil, if_true]
  · have hru : ru.revision = upper := get_rev_eq hu
    have hempty :
        (m.ancestorIds [upper]).filter
          (fun x => decide (x ∈ m.descendantIds [lower])) = [] := by
      rw [List.filter_eq_nil_iff]
      intro x hx
      simpa using not_ancestor_space_empty m hna x hx
    rw [RevisionMap.iterateIds]
    simp only [List.filterMap_cons, List.filterMap_nil, hu, hl, List.map_cons,
      List.map_nil, hrl, hru, List.isEmpty_cons]
    rw [List.dedup_cons_of_not_mem (List.not_mem_nil ru), List.dedup_nil]
    simp only [List.map_cons, List.map_nil, hru, Bool.false_eq_true, if_false,
      List.isEmpty_cons, hempty, List.isEmpty_nil, if_true]

/-- C6 witness: in the chain a→b, b is not an ancestor of a, and the walk from
a down to b fails with the error carrying exactly that pair. -/
theorem range_not_ancestor_failure_witness :
    chainMap.iterateIds ["a"] ["b"] true false =
      .error (.rangeNotAncestor ["b"] ["a"]) :=
  range_not_ancestor_failure chainMap "a" "b" (mkRev "b" ["a"]) (by rfl) (by decide)

/-- C4: the upgrade plan traverses from the destination down to the current
revision(s) with `implicit_base=True`, reverses the newest-to-oldest traversal
so execution runs oldest-to-newest, and emits exactly one ordered step per
traversed node, each step knowing its own id and the id(s) it supersedes. -/
theorem upgrade_plan_structure (m : RevisionMap) (destination : String)
    (current_rev : List String) (revs : List Revision)
    (h : m.iterate_revisions [destination] current_rev true = .ok revs) :
    _upgrade_revs m destination current_rev =
      .ok (revs.reverse.map MigrationStep.upgrade_from_script) ∧
    ∀ steps, _upgrade_revs m destination current_rev = .ok steps →
      steps.length = revs.length ∧
      steps.map MigrationStep.rev_id = (revs.map Revision.revision).reverse ∧
      steps.map MigrationStep.supersedes = (revs.map Revision.down_revision).reverse ∧
      ∀ s ∈ steps, s.is_upgrade = true := by
  have h1 : _upgrade_revs m destination current_rev =
      .ok (revs.reverse.map MigrationStep.upgrade_from_script) := by
    rw [_upgrade_revs, h]
    rfl
  refine ⟨h1, ?_⟩
  intro steps hs
  rw [h1] at hs
  injection hs with hs
  subst hs
  refine ⟨by simp, ?_, ?_, ?_⟩
  · rw [List.map_map, ← List.map_reverse]
    rfl
  · rw [List.map_map, ← List.map_reverse]
    rfl
  · intro s hsm
    simp only [List.mem_map] at hsm
    obtain ⟨r, _, hr⟩ := hsm
    rw [← hr]
    rfl

/-- C4 witness: the full upgrade plan from an empty current state to head c in
the chain a→b→c runs a, then b, then c. -/
theorem upgrade_plan_structure_witness :
    _upgrade_revs chainMap "c" [] =
      .ok ([mkRev "c" ["b"], mkRev "b" ["a"],
            mkRev "a" []].reverse.map MigrationStep.upgrade_from_script) :=
  (upgrade_plan_structure chainMap "c" []
    [mkRev "c" ["b"], mkRev "b" ["a"], mkRev "a" []] (by rfl)).1

/-- C5: resolving the symbolic reference "heads" returns exactly the set of all
current head revisions, while resolving "head" when the map has more than one
head fails with a multiple-heads error carrying every head and the offending
argument string. -/
theorem heads_resolution (m : RevisionMap) :
    m.resolveSymbol "heads" = .ok m.heads ∧
    (1 < m.heads.length →
      m.get_current_head = .error (.multipleHeads m.heads "head") ∧
      m.resolveSymbol "head" = .error (.multipleHeads m.heads "head")) := by
  constructor
  · rw [RevisionMap.resolveSymbol]
    simp
  · intro h
    have hc : m.get_current_head = .error (.multipleHeads m.heads "head") := by
      rw [RevisionMap.get_current_head, if_pos h]
    refine ⟨hc, ?_⟩
    rw [RevisionMap.resolveSymbol]
    simp [hc]

/-- C5 witness: on a map with two heads b and c, `get_current_head` fails with
the multiple-heads error listing both of them and the argument "head", while
"heads" resolves to both. -/
theorem heads_resolution_witness :
    twoHeadsMap.resolveSymbol "heads" = .ok twoHeadsMap.heads ∧
    twoHeadsMap.get_current_head =
      .error (.multipleHeads twoHeadsMap.heads "head") :=
  ⟨(heads_resolution twoHeadsMap).1,
   ((heads_resolution twoHeadsMap).2 (by decide)).1⟩

/-- C9: `get_base` returns `None` when the map has no base revisions, the
single base when exactly one exists, and an error directing the caller to
`get_bases()` when more than one base exists. -/
theorem get_base_behaviour (m : RevisionMap) :
    (m.bases = [] → get_base m = .ok none) ∧
    (∀ b, m.bases = [b] → get_base m = .ok (some b)) ∧
    (1 < m.bases.length →
      get_base m = .error (.commandError
        "The script directory has multiple bases. Please use get_bases().")) := by
  refine ⟨?_, ?_, ?_⟩
  · intro h
    rw [get_base]
    simp [h]
  · intro b h
    rw [get_base]
    simp [h]
  · intro h
    rw [get_base]
    simp only [if_pos h]

/-- C9 witness: the three behaviours at an empty map, a single-base chain, and
a two-base map. -/
theorem get_base_behaviour_witness :
    get_base emptyMap = .ok none ∧
    get_base chainMap = .ok (some "a") ∧
    get_base twoBasesMap = .error (.commandError
      "The script directory has multiple bases. Please use get_bases().") :=
  ⟨(get_base_behaviour emptyMap).1 (by decide),
   (get_base_behaviour chainMap).2.1 "a" (by decide),
   (get_base_behaviour twoBasesMap).2.2 (by decide)⟩

theorem _stamp_revs_eq (m : RevisionMap) (target : String) (headIds : List String)
    (dest : Revision) (hdest : m.get target = some dest) :
    _stamp_revs m target headIds =
      (if dest ∈ m.filter_for_lineage (m.getRevisions headIds) target then .ok []
       else if (m.filter_for_lineage (m.getRevisions headIds) target).any
           (fun h => decide (h.revision ∈ m.descendantIds [dest.revision])) then
         if (m.filter_for_lineage (m.getRevisions headIds) target).any
             (fun h => decide (h.revision ∈ m.ancestorIds [dest.revision])) then
           .error .assertionError
         else
           .ok [⟨.listArg ((m.filter_for_lineage (m.getRevisions headIds) target).map
               (fun h => some h.revision)), some dest.revision, false, false⟩]
       else if (m.filter_for_lineage (m.getRevisions headIds) target).any
           (fun h => decide (h.revision ∈ m.ancestorIds [dest.revision])) then
         .ok [⟨.listArg ((m.filter_for_lineage (m.getRevisions headIds) target).map
             (fun h => some h.revision)), some dest.revision, true, false⟩]
       else .ok [⟨.listArg [none], some dest.revision, true, true⟩]) := by
  rw [_stamp_revs, hdest]

/-- C1: the stamp plan classifies the target against the lineage-filtered
current heads and produces no steps when the target is already among them, a
single retreat step (listing all filtered heads) when the target is an ancestor
of the heads, a single advance step (listing all filtered heads) when it is a
descendant, a single create-new-branch step when it is neither, and exactly one
step per successful request except the no-op case; repeating the stamp while
the heads already equal the target yields the empty step list each time.  Per
the source `assert`, a head set lying both above and below the target raises
`AssertionError` instead of producing a step. -/
theorem stamp_plan_classification (m : RevisionMap) (target : String)
    (headIds : List String) (dest : Revision) (hdest : m.get target = some dest) :
    (dest ∈ m.filter_for_lineage (m.getRevisions headIds) target →
      _stamp_revs m target headIds = .ok []) ∧
    (dest ∉ m.filter_for_lineage (m.getRevisions headIds) target →
      (m.filter_for_lineage (m.getRevisions headIds) target).any
          (fun h => decide (h.revision ∈ m.descendantIds [dest.revision])) = true →
      (m.filter_for_lineage (m.getRevisions headIds) target).any
          (fun h => decide (h.revision ∈ m.ancestorIds [dest.revision])) = false →
      _stamp_revs m target headIds =
        .ok [⟨.listArg ((m.filter_for_lineage (m.getRevisions headIds) target).map
            (fun h => some h.revision)), some dest.revision, false, false⟩]) ∧
    (dest ∉ m.filter_for_lineage (m.getRevisions headIds) target →
      (m.filter_for_lineage (m.getRevisions headIds) target).any
          (fun h => decide (h.revision ∈ m.descendantIds [dest.revision])) = true →
      (m.filter_for_lineage (m.getRevisions headIds) target).any
          (fun h => decide (h.revision ∈ m.ancestorIds [dest.revision])) = true →
      _stamp_revs m target headIds = .error .assertionError) ∧
    (dest ∉ m.filter_for_lineage (m.getRevisions headIds) target →
      (m.filter_for_lineage (m.getRevisions headIds) target).any
          (fun h => decide (h.revision ∈ m.descendantIds [dest.revision])) = false →
      (m.filter_for_lineage (m.getRevisions headIds) target).any
          (fun h => decide (h.revision ∈ m.ancestorIds [dest.revision])) = true →
      _stamp_revs m target headIds =
        .ok [⟨.listArg ((m.filter_for_lineage (m.getRevisions headIds) target).map
            (fun h => some h.revision)), some dest.revision, true, false⟩]) ∧
    (dest ∉ m.filter_for_lineage (m.getRevisions headIds) target →
      (m.filter_for_lineage (m.getRevisions headIds) target).any
          (fun h => decide (h.revision ∈ m.descendantIds [dest.revision])) = false →
      (m.filter_for_lineage (m.getRevisions headIds) target).any
          (fun h => decide (h.revision ∈ m.ancestorIds [dest.revision])) = false →
      _stamp_revs m target headIds =
        .ok [⟨.listArg [none], some dest.revision, true, true⟩]) ∧
    (dest ∉ m.filter_for_lineage (m.getRevisions headIds) target →
      ∀ steps, _stamp_revs m target headIds = .ok steps → steps.length = 1) ∧
    (m.getRevisions headIds = [dest] → _stamp_revs m target headIds = .ok []) := by
  rw [_stamp_revs_eq m target headIds dest hdest]
  refine ⟨?_, ?_, ?_, ?_, ?_, ?_, ?_⟩
  · intro h1
    rw [if_pos h1]
  · intro h1 h2 h3
    rw [if_neg h1, if_pos h2, if_neg (by simp [h3])]
  · intro h1 h2 h3
    rw [if_neg h1, if_pos h2, if_pos h3]
  · intro h1 h2 h3
    rw [if_neg h1, if_neg (by simp [h2]), if_pos h3]
  · intro h1 h2 h3
    rw [if_neg h1, if_neg (by simp [h2]), if_neg (by simp [h3])]
  · intro h1 steps hsteps
    rw [if_neg h1] at hsteps
    by_cases h2 : (m.filter_for_lineage (m.getRevisions headIds) target).any
        (fun h => decide (h.revision ∈ m.descendantIds [dest.revision])) = true
    · rw [if_pos h2] at hsteps
      by_cases h3 : (m.filter_for_lineage (m.getRevisions headIds) target).any
          (fun h => decide (h.revision ∈ m.ancestorIds [dest.revision])) = true
      · rw [if_pos h3] at hsteps
        cases hsteps
      · rw [if_neg h3] at hsteps
        injection hsteps with hsteps
        rw [← hsteps]
        rfl
    · rw [if_neg h2] at hsteps
      by_cases h3 : (m.filter_for_lineage (m.getRevisions headIds) target).any
          (fun h => decide (h.revision ∈ m.ancestorIds [dest.revision])) = true
      · rw [if_pos h3] at hsteps
        injection hsteps with hsteps
        rw [← hsteps]
        rfl
      · rw [if_neg h3] at hsteps
        injection hsteps with hsteps
        rw [← hsteps]
        rfl
  · intro h6
    have hm : dest ∈ m.filter_for_lineage (m.getRevisions headIds) target := by
      rw [h6, RevisionMap.filter_for_lineage, hdest]
      simp only [List.mem_filter, List.mem_singleton, Bool.or_eq_true, decide_eq_true_eq]
      exact ⟨trivial, Or.inl (mem_ancestorIds_self m (List.mem_singleton.mpr rfl))⟩
    rw [if_pos hm]

/-- C1 witness: stamping target b from recorded head a in the chain a→b→c is an
advance producing exactly one step that lists the superseded head a, while the
straddling head set [a, c] (one head below b, one above) trips the source
`assert` and produces the assertion failure instead of a step. -/
theorem stamp_plan_classification_witness :
    _stamp_revs chainMap "b" ["a"] =
      .ok [⟨.listArg [some "a"], some "b", true, false⟩] ∧
    _stamp_revs chainMap "b" ["a", "c"] = .error .assertionError := by
  constructor
  · have h := (stamp_plan_classification chainMap "b" ["a"] (mkRev "b" ["a"])
      (by rfl)).2.2.2.1 (by decide) (by decide) (by decide)
    rw [h]
    rfl
  · exact (stamp_plan_classification chainMap "b" ["a", "c"] (mkRev "b" ["a"])
      (by rfl)).2.2.1 (by decide) (by decide) (by decide)

/-- C8: when the resolved head list for a new revision contains duplicates,
generation fails with the duplicate-heads error and no revision file is
created (no success outcome, hence no effect, is produced). -/
theorem duplicate_heads_rejected (m : RevisionMap) (revid message : String)
    (headRefs : List String) (refresh splice : Bool) (labels : List String)
    (heads : List Revision)
    (hres : m.resolveRefs headRefs = .ok heads)
    (hdup : heads.dedup.length ≠ heads.length) :
    generate_revision m revid message headRefs refresh splice labels =
      .error (.commandError "Duplicate head revisions specified") ∧
    ∀ out, generate_revision m revid message headRefs refresh splice labels ≠ .ok out := by
  have h1 : generate_revision m revid message headRefs refresh splice labels =
      .error (.commandError "Duplicate head revisions specified") := by
    simp only [generate_revision, hres]
    rw [if_pos hdup]
  refine ⟨h1, ?_⟩
  intro out h
  rw [h1] at h
  cases h

/-- C8 witness: specifying the head c twice in the chain a→b→c is rejected with
the duplicate-heads error. -/
theorem duplicate_heads_rejected_witness :
    generate_revision chainMap "d" "msg" ["c", "c"] false false [] =
      .error (.commandError "Duplicate head revisions specified") :=
  (duplicate_heads_rejected chainMap "d" "msg" ["c", "c"] false false []
    [mkRev "c" ["b"], mkRev "c" ["b"]] (by rfl) (by decide)).1

/-- C10: with valid inputs, `generate_revision` with `refresh=False` writes the
file but leaves the in-memory revision map unchanged and returns `None`, while
`refresh=True` adds exactly the one new node to the map and returns it; the
incremental insertion appends the new node, leaving every pre-existing node of
the map unmodified. -/
theorem generate_refresh_frame (m : RevisionMap) (revid message : String)
    (headRefs : List String) (splice : Bool) (labels : List String)
    (heads : List Revision)
    (hres : m.resolveRefs headRefs = .ok heads)
    (hnodup : heads.dedup.length = heads.length)
    (hheads : (if splice then none
               else heads.find? (fun h => !(m.is_head h.revision))) = none) :
    generate_revision m revid message headRefs false splice labels =
      .ok ⟨[.fileCreated (revid ++ "_" ++ message)], m, none⟩ ∧
    generate_revision m revid message headRefs true splice labels =
      .ok ⟨[.fileCreated (revid ++ "_" ++ message)],
           m.add_revision ⟨revid, heads.map Revision.revision, labels⟩,
           some ⟨revid, heads.map Revision.revision, labels⟩⟩ ∧
    (m.add_revision ⟨revid, heads.map Revision.revision, labels⟩).revisions =
      m.revisions ++ [⟨revid, heads.map Revision.revision, labels⟩] := by
  have hlabels : (decide (labels ≠ []) &&
      decide ((Revision.mk revid (heads.map Revision.revision) labels).branch_labels = []))
      = false := by
    cases labels <;> simp
  refine ⟨?_, ?_, rfl⟩
  · simp only [generate_revision, hres]
    rw [if_neg (fun hc : heads.dedup.length ≠ heads.length => hc hnodup)]
    simp only [hheads, Bool.false_eq_true, if_false]
  · simp only [generate_revision, hres]
    rw [if_neg (fun hc : heads.dedup.length ≠ heads.length => hc hnodup)]
    simp only [hheads, hlabels, Bool.false_eq_true, if_false, if_true]

/-- C10 witness: generating revision d on head c of the chain a→b→c with
`refresh=False` leaves the map untouched and returns nothing, while
`refresh=True` appends exactly the node d and returns it. -/
theorem generate_refresh_frame_witness :
    generate_revision chainMap "d" "m" ["c"] false false [] =
      .ok ⟨[.fileCreated ("d" ++ "_" ++ "m")], chainMap, none⟩ ∧
    generate_revision chainMap "d" "m" ["c"] true false [] =
      .ok ⟨[.fileCreated ("d" ++ "_" ++ "m")],
           chainMap.add_revision ⟨"d", [mkRev "c" ["b"]].map Revision.revision, []⟩,
           some ⟨"d", [mkRev "c" ["b"]].map Revision.revision, []⟩⟩ := by
  have h := generate_refresh_frame chainMap "d" "m" ["c"] false []
    [mkRev "c" ["b"]] (by rfl) (by decide) (by decide)
  exact ⟨h.1, h.2.1⟩

end Alembic
